import Mathlib

/-! Road-network server (`main.go`): request layer over the shortest-path graph engine.

A shallow embedding of `src/main.go`.

* Go `int` is a 64-bit two's-complement integer.  Values are `Int`; every
  arithmetic result passes through `wrap64`.  Comparisons need no wrapping.
* A Go slice is a `List`; an index expression `xs[i]` panics outside
  `0 ≤ i < len xs`, which is `none` here (`idx?`).
* The standard-library functions used by `main.go` (`strconv.Atoi`,
  `image.NewPaletted`, `SetColorIndex`) are modelled after their documented
  behaviour.
* The package `graph` is not among the sources; its search is modelled from
  the specification (section 4.2).
-/

set_option autoImplicit false

namespace RoadServer

/-! ## Machine integers and slices -/

/-- Two's-complement reduction of an integer to the range of a Go `int` (64 bits). -/
def wrap64 (x : Int) : Int := (x + 2 ^ 63) % 2 ^ 64 - 2 ^ 63

/-- Predicate: the integer is representable as a Go `int`. -/
def IsInt64 (x : Int) : Prop := -(2 ^ 63) ≤ x ∧ x < 2 ^ 63

instance (x : Int) : Decidable (IsInt64 x) := by unfold IsInt64; infer_instance

/-- Slice indexing `xs[i]`: `none` stands for the run-time panic. -/
def idx? {α : Type} (xs : List α) (i : Int) : Option α :=
  if 0 ≤ i then xs.get? i.toNat else none

/-! ## `strconv.Atoi` -/

/-- Value of a decimal digit byte, `none` for any other character. -/
def digitVal (c : Char) : Option Nat :=
  if 48 ≤ c.toNat ∧ c.toNat ≤ 57 then some (c.toNat - 48) else none

/-- Left-to-right accumulation of decimal digits; `none` on a non-digit. -/
def parseDigits : List Char → Nat → Option Nat
  | [], acc => some acc
  | c :: cs, acc =>
    match digitVal c with
    | none => none
    | some d => parseDigits cs (acc * 10 + d)

/-- Go `strconv.Atoi` on a 64-bit platform: an optional sign followed by at
least one decimal digit, the value within the `int` range.  `none` is a
non-nil `err` (syntax or range); both callers discard the value then. -/
def Atoi (s : String) : Option Int :=
  match s.toList with
  | [] => none
  | c :: cs =>
    let neg := decide (c = '-')
    let ds := if c = '-' ∨ c = '+' then cs else c :: cs
    match ds with
    | [] => none
    | d :: ds' =>
      match parseDigits (d :: ds') 0 with
      | none => none
      | some n =>
        if neg then (if n ≤ 2 ^ 63 then some (-(n : Int)) else none)
        else (if n < 2 ^ 63 then some (n : Int) else none)

/-! ## `parseInt` (main.go 160-174) -/

/-- Parses integer, ensuring result is in [min, max]; the default value
replaces the parse result when `s` is not an integer. -/
def parseInt (s : String) (min max defaultValue : Int) : Int :=
  let x := match Atoi s with
    | some v => v
    | none => defaultValue
  let x := if x < min then min else x
  let x := if x > max then max else x
  x

/-! ## Graph data (package `graph`, as used by `main.go`) -/

/-- Modelled from the spec: the type `graph.Cord`, declared outside the
sources: a coordinate in micro-degrees, with the fields `Lat` and `Long`
that `main.go` reads. -/
structure Cord where
  Lat : Int
  Long : Int
deriving DecidableEq

/-- Modelled from the spec: the arc type of package `graph`, declared
outside the sources: destination vertex and weight, with the fields `Dest`
and `Dist` that the `/vertex` handler reads. -/
structure Arc where
  Dest : Int
  Dist : Int
deriving DecidableEq

/-- Modelled from the spec: the type `graph.Graph`, declared outside the
sources: the coordinates and the adjacency lists, both indexed by vertex,
with the fields `Nodes` and `AdjacencyLists` that `main.go` reads. -/
structure Graph where
  Nodes : List Cord
  AdjacencyLists : List (List Arc)
deriving DecidableEq

/-! ## `findCordinateRange` (main.go 82-100) -/

/-- The four running extremes `(minLat, maxLat, minLong, maxLong)`. -/
structure CordRange where
  minLat : Int
  maxLat : Int
  minLong : Int
  maxLong : Int
deriving DecidableEq

/-- One iteration of the loop body, on the coordinate `cords[i]`. -/
def rangeStep (r : CordRange) (c : Cord) : CordRange :=
  let maxLat := if c.Lat > r.maxLat then c.Lat else r.maxLat
  let minLat := if c.Lat < r.minLat then c.Lat else r.minLat
  let maxLong := if c.Long > r.maxLong then c.Long else r.maxLong
  let minLong := if c.Long < r.minLong then c.Long else r.minLong
  ⟨minLat, maxLat, minLong, maxLong⟩

/-- The `for _, i := range indices` loop; `none` when some `cords[i]` panics. -/
def rangeLoop (cords : List Cord) : List Int → CordRange → Option CordRange
  | [], r => some r
  | i :: is, r =>
    match idx? cords i with
    | none => none
    | some c => rangeLoop cords is (rangeStep r c)

/-- Finds range of coordinate values specified by indices. -/
def findCordinateRange (indices : List Int) (cords : List Cord) : Option CordRange :=
  rangeLoop cords indices ⟨180000000, -180000000, 180000000, -180000000⟩

/-! ## The `/shortest-path` and `/vertex` handlers (main.go 202-227) -/

/-- Arguments the `/shortest-path` handler passes to `drawShortestPath`:
`(src, dest, size)`.  `r1`, `r2` are the two values drawn by
`rand.Intn(maxIdx)`, which panics (`none`) unless `maxIdx > 0`. -/
def shortestPathArgs (g : Graph) (srcForm destForm sizeForm : String) (r1 r2 : Int) :
    Option (Int × Int × Int) :=
  let maxIdx : Int := g.Nodes.length
  if maxIdx ≤ 0 then none
  else
    let src := wrap64 (parseInt srcForm 1 maxIdx (wrap64 (r1 + 1)) - 1)
    let dest := wrap64 (parseInt destForm 1 maxIdx (wrap64 (r2 + 1)) - 1)
    let size := parseInt sizeForm 24 2000 400
    some (src, dest, size)

/-- What the `/vertex` handler writes, one item per `Fprintf`. -/
inductive Line where
  | errInvalid
  | errRange
  | cordinates (c : Cord)
  | edgesHeader
  | edge (dest : Int) (c : Cord) (dist : Int)
deriving DecidableEq

/-- The loop over `roadNetwork.AdjacencyLists[i]`: the lines written and
whether the loop ran to its end (`false`: `roadNetwork.Nodes[dest.Dest]` panicked). -/
def edgeLines (nodes : List Cord) : List Arc → List Line × Bool
  | [] => ([], true)
  | a :: as =>
    match idx? nodes a.Dest with
    | none => ([], false)
    | some c =>
      let rest := edgeLines nodes as
      (Line.edge (wrap64 (a.Dest + 1)) c a.Dist :: rest.1, rest.2)

/-- The `/vertex` handler on the form value `i`: the lines written and
whether the handler returned normally (`false`: an index expression panicked). -/
def vertexHandler (g : Graph) (iForm : String) : List Line × Bool :=
  match Atoi iForm with
  | none => ([Line.errInvalid], true)
  | some i0 =>
    let i := wrap64 (i0 - 1)
    if i < 0 ∨ i ≥ (g.Nodes.length : Int) then ([Line.errRange], true)
    else
      match idx? g.Nodes i with
      | none => ([], false)
      | some c =>
        match idx? g.AdjacencyLists i with
        | none => ([Line.cordinates c, Line.edgesHeader], false)
        | some adj =>
          let rest := edgeLines g.Nodes adj
          (Line.cordinates c :: Line.edgesHeader :: rest.1, rest.2)

/-- Graph invariant of the data model: one adjacency list per vertex and
every arc destination within `[0, N)`. -/
def Graph.WellFormed (g : Graph) : Prop :=
  g.AdjacencyLists.length = g.Nodes.length ∧
  ∀ adj ∈ g.AdjacencyLists, ∀ a ∈ adj, 0 ≤ a.Dest ∧ a.Dest < (g.Nodes.length : Int)

instance (g : Graph) : Decidable g.WellFormed := by unfold Graph.WellFormed; infer_instance

/-! ## Shortest-path engine (package `graph`, specification section 4.2) -/

/-- Outgoing arcs of a vertex; a vertex without an adjacency list has none. -/
def arcsOf (g : Graph) (u : Int) : List Arc :=
  match idx? g.AdjacencyLists u with
  | some adj => adj
  | none => []

/-- A vertex index is valid when it lies in `[0, N)`. -/
def validVertex (g : Graph) (v : Int) : Prop := 0 ≤ v ∧ v < (g.Nodes.length : Int)

instance (g : Graph) (v : Int) : Decidable (validVertex g v) := by
  unfold validVertex; infer_instance

/-- Modelled from the spec: the per-query search working state of section 3,
absent from the sources: a distance estimate per vertex (`none` is unknown),
a settled flag and a predecessor per vertex, the priority queue of
`(vertex, tentative distance)` pairs in insertion order, and the extracted
pairs in settlement order. -/
structure SearchState where
  dist : Int → Option Int
  settled : Int → Bool
  pred : Int → Option Int
  queue : List (Int × Int)
  trace : List (Int × Int)

/-- Modelled from the spec: the stable priority queue (absent from the
sources): removes the entry of smallest tentative distance, the earliest
inserted one among equals. -/
def popMin : List (Int × Int) → Option ((Int × Int) × List (Int × Int))
  | [] => none
  | e :: es =>
    match popMin es with
    | none => some (e, [])
    | some (m, rest) => if e.2 ≤ m.2 then some (e, es) else some (m, e :: rest)

/-- Modelled from the spec: relaxation of one outgoing arc of the extracted
vertex `u` (absent from the sources): an unsettled neighbour whose candidate
distance is strictly smaller gets the new distance and predecessor and is
(re)inserted into the queue. -/
def relax (u du : Int) (st : SearchState) (a : Arc) : SearchState :=
  let cand := du + a.Dist
  let improves : Bool :=
    match st.dist a.Dest with
    | none => true
    | some dv => decide (cand < dv)
  if st.settled a.Dest = false ∧ improves = true then
    { st with
      dist := Function.update st.dist a.Dest (some cand)
      pred := Function.update st.pred a.Dest (some u)
      queue := st.queue ++ [(a.Dest, cand)] }
  else st

/-- Modelled from the spec: the initial working state (absent from the
sources): source distance zero, everything else unknown, source queued. -/
def initState (s : Int) : SearchState :=
  { dist := Function.update (fun _ => none) s (some 0)
    settled := fun _ => false
    pred := fun _ => none
    queue := [(s, 0)]
    trace := [] }

/-- Modelled from the spec: settlement of the extracted vertex (absent from
the sources): the entry leaves the queue, the vertex is marked settled and
appended to the settlement order. -/
def settle (st : SearchState) (u d : Int) (rest : List (Int × Int)) : SearchState :=
  { st with
    queue := rest
    settled := Function.update st.settled u true
    trace := st.trace ++ [(u, d)] }

/-- Modelled from the spec: the extraction loop (absent from the sources),
at most `fuel` extractions: pop the smallest entry; skip it when its vertex
is settled already; otherwise settle the vertex, stop when it is the
destination, else relax its outgoing arcs in order. -/
def runSearch (g : Graph) (t : Int) : Nat → SearchState → SearchState
  | 0, st => st
  | fuel + 1, st =>
    match popMin st.queue with
    | none => st
    | some ((u, d), rest) =>
      if st.settled u = true then runSearch g t fuel { st with queue := rest }
      else if u = t then settle st u d rest
      else runSearch g t fuel ((arcsOf g u).foldl (relax u d) (settle st u d rest))

/-- Number of arcs of the graph. -/
def arcCount (g : Graph) : Nat := (g.AdjacencyLists.map List.length).sum

/-- Modelled from the spec: the working state when the search stops (absent
from the sources).  Every arc is relaxed at most once, so `arcCount g + 1`
extractions always reach the end of the loop. -/
def searchFinal (g : Graph) (s t : Int) : SearchState :=
  runSearch g t (arcCount g + 1) (initState s)

/-- Modelled from the spec: the walk along predecessor links from `cur`
back to the source (absent from the sources), at most `fuel` vertices. -/
def walkBack (pred : Int → Option Int) (s : Int) : Nat → Int → Option (List Int)
  | 0, _ => none
  | fuel + 1, cur =>
    if cur = s then some [cur]
    else
      match pred cur with
      | none => none
      | some p =>
        match walkBack pred s fuel p with
        | none => none
        | some l => some (cur :: l)

/-- Modelled from the spec: path reconstruction (absent from the sources):
predecessor links walked backward from the destination, then reversed;
empty when the destination was never settled. -/
def buildPath (st : SearchState) (s t : Int) : List Int :=
  if st.settled t = true then
    match walkBack st.pred s st.trace.length t with
    | some l => l.reverse
    | none => []
  else []

/-- Modelled from the spec: `graph.SearchSequence` (absent from the sources),
the `search(graph, source, destination) -> (path, settlementOrder)` of
section 4.2.  `none` is the rejection of an out-of-range index. -/
def SearchSequence (g : Graph) (src dest : Int) : Option (List Int × List Int) :=
  if validVertex g src ∧ validVertex g dest then
    let st := searchFinal g src dest
    some (buildPath st src dest, st.trace.map Prod.fst)
  else none

/-- A directed path from `u` to `v` of total weight `w`, built arc by arc. -/
inductive DirPath (g : Graph) (u : Int) : Int → Int → Prop where
  | nil : DirPath g u u 0
  | snoc {v w : Int} (a : Arc) : DirPath g u v w → a ∈ arcsOf g v → DirPath g u a.Dest (w + a.Dist)

/-- The vertex list `p` is linked by arcs of weights `ws`: each vertex has an
arc of the listed weight to the next one. -/
def ArcChain (g : Graph) : List Int → List Int → Prop
  | [], ws => ws = []
  | [_], ws => ws = []
  | u :: v :: rest, w :: ws => (⟨v, w⟩ : Arc) ∈ arcsOf g u ∧ ArcChain g (v :: rest) ws
  | _ :: _ :: _, [] => False

/-- All arc weights are non-negative. -/
def NonNegWeights (g : Graph) : Prop :=
  ∀ adj ∈ g.AdjacencyLists, ∀ a ∈ adj, 0 ≤ a.Dist

instance (g : Graph) : Decidable (NonNegWeights g) := by unfold NonNegWeights; infer_instance

/-- Scenario A of the specification. -/
def scenarioA : Graph :=
  { Nodes := [⟨0, 0⟩, ⟨1, 1⟩, ⟨2, 2⟩, ⟨3, 3⟩]
    AdjacencyLists := [[⟨1, 5⟩, ⟨2, 2⟩], [⟨3, 2⟩], [⟨1, 1⟩], []] }

/-- Scenario B of the specification: vertex 2 has no incoming arc. -/
def scenarioB : Graph :=
  { Nodes := [⟨0, 0⟩, ⟨1, 1⟩, ⟨2, 2⟩]
    AdjacencyLists := [[⟨1, 4⟩], [⟨0, 1⟩], [⟨0, 3⟩]] }

/-! ## Rendering (main.go 16-66, 102-158) -/

/-- Go `inRange` (main.go 16-18). -/
def inRange (cord : Cord) (minLat maxLat minLong maxLong : Int) : Bool :=
  decide (cord.Lat ≥ minLat ∧ cord.Lat ≤ maxLat ∧ cord.Long ≥ minLong ∧ cord.Long ≤ maxLong)

/-- Go `pixelLocation` (main.go 20-24).  The parameter `fquot a b` stands for the
floating-point expression `int(float64(a) / float64(b))`, which is not
embedded. -/
def pixelLocation (fquot : Int → Int → Int) (cord : Cord) (minLat minLong radius size : Int) :
    Int × Int :=
  let x := fquot (wrap64 (wrap64 (cord.Long - minLong) * size)) (wrap64 (2 * radius))
  let y := fquot (wrap64 (wrap64 (cord.Lat - minLat) * size)) (wrap64 (2 * radius))
  (x, y)

def backgroundColor : Nat := 0
def unvisitedColor : Nat := 1
def visitedColor : Nat := 2
def pathColor : Nat := 3

/-- An `image.Paletted` over the square `[lo, hi) × [lo, hi)`: the palette
index stored at each pixel. -/
structure Paletted where
  lo : Int
  hi : Int
  pix : Int → Int → Nat

/-- Go `image.NewPaletted(image.Rect(0, 0, size, size), palette)`: `Rect` orders
its corners, the pixels start at index 0; `none` is the panic on a pixel
count that does not fit an `int`. -/
def NewPaletted (size : Int) : Option Paletted :=
  if size * size < 2 ^ 63 then some ⟨min 0 size, max 0 size, fun _ _ => 0⟩ else none

/-- Go `(*image.Paletted).SetColorIndex`: a point outside the rectangle is ignored. -/
def SetColorIndex (img : Paletted) (x y : Int) (index : Nat) : Paletted :=
  if img.lo ≤ x ∧ x < img.hi ∧ img.lo ≤ y ∧ y < img.hi then
    { img with pix := fun a b => if a = x ∧ b = y then index else img.pix a b }
  else img

/-- The process-wide state: the global `roadNetwork` (main.go 148), set by
`setup` before any request is served. -/
structure World where
  roadNetwork : Graph

/-- Go `setup` (main.go 150-158) on the outcome of `graph.LoadGraph`: the only
assignment to `roadNetwork`; `none` is `log.Fatal`. -/
def setup (loaded : Option Graph) (_w : World) : Option World :=
  match loaded with
  | none => none
  | some g => some { roadNetwork := g }

/-- Paints the vertices `cords` that are in range with `color` (the loop
bodies of main.go 51-57, 127-134 and 137-144). -/
def paint (fquot : Int → Int → Int) (minLat maxLat minLong maxLong radius size : Int)
    (color : Nat) (img : Paletted) (cord : Cord) : Paletted :=
  if inRange cord minLat maxLat minLong maxLong = false then img
  else
    let xy := pixelLocation fquot cord minLat minLong radius size
    SetColorIndex img xy.1 (wrap64 (size - xy.2)) color

/-- Go `makeMap` (main.go 40-59), reading the global graph of the world `w`;
returns the image (`none`: panic) and the world after the call. -/
def makeMap (fquot : Int → Int → Int) (centerx centery radius size : Int) (w : World) :
    Option Paletted × World :=
  match NewPaletted size with
  | none => (none, w)
  | some img0 =>
    let img := (List.range size.toNat).foldl
      (fun im (y : Nat) => (List.range size.toNat).foldl
        (fun im (x : Nat) => SetColorIndex im x y backgroundColor) im) img0
    let minLat := wrap64 (centery - radius)
    let maxLat := wrap64 (centery + radius)
    let minLong := wrap64 (centerx - radius)
    let maxLong := wrap64 (centerx + radius)
    let img := w.roadNetwork.Nodes.foldl
      (paint fquot minLat maxLat minLong maxLong radius size unvisitedColor) img
    (some img, w)

/-- A `gif.GIF`: frames and delays. -/
structure GIF where
  Image : List Paletted
  Delay : List Int

/-- Go `drawMap` (main.go 61-66): the GIF handed to the encoder. -/
def drawMap (fquot : Int → Int → Int) (centerx centery radius size : Int) (w : World) :
    Option GIF × World :=
  match makeMap fquot centerx centery radius size w with
  | (none, w1) => (none, w1)
  | (some img, w1) => (some ⟨[img], [0]⟩, w1)

/-- Go `findCordinateRange` as called on the global graph: the call site of
main.go 107, with the world threaded through. -/
def findCordinateRangeIn (indices : List Int) (w : World) : Option CordRange × World :=
  (findCordinateRange indices w.roadNetwork.Nodes, w)

/-- The loops of main.go 127-134 and 137-144 over a vertex sequence;
`none` when `roadNetwork.Nodes[v]` panics. -/
def paintSeq (fquot : Int → Int → Int) (nodes : List Cord)
    (minLat maxLat minLong maxLong radius size : Int) (color : Nat) :
    List Int → Paletted → Option Paletted
  | [], img => some img
  | v :: vs, img =>
    match idx? nodes v with
    | none => none
    | some cord =>
      paintSeq fquot nodes minLat maxLat minLong maxLong radius size color vs
        (paint fquot minLat maxLat minLong maxLong radius size color img cord)

/-- Go `max` (main.go 75-80). -/
def max (a b : Int) : Int := if a > b then a else b

/-- Go `drawShortestPath` (main.go 102-146): the GIF handed to the encoder
(`none`: panic) and the world after the call.  The parameter `search` is
`graph.SearchSequence`, which receives the graph and returns the path and
the search sequence. -/
def drawShortestPath (search : Graph → Int → Int → Option (List Int × List Int))
    (fquot : Int → Int → Int) (src dest size : Int) (w : World) : Option GIF × World :=
  match search w.roadNetwork src dest with
  | none => (none, w)
  | some (shortestPath, searchSeq) =>
    match findCordinateRangeIn searchSeq w with
    | (none, w1) => (none, w1)
    | (some r, w1) =>
      let centerx := Int.tdiv (wrap64 (r.minLong + r.maxLong)) 2
      let centery := Int.tdiv (wrap64 (r.minLat + r.maxLat)) 2
      let dx := wrap64 (r.maxLong - r.minLong)
      let dy := wrap64 (r.maxLat - r.minLat)
      let radius := max (Int.tdiv (wrap64 (max dx dy * 11)) 20) 50000
      let minLat := wrap64 (centery - radius)
      let maxLat := wrap64 (centery + radius)
      let minLong := wrap64 (centerx - radius)
      let maxLong := wrap64 (centerx + radius)
      match makeMap fquot centerx centery radius size w1 with
      | (none, w2) => (none, w2)
      | (some baseMap, w2) =>
        match paintSeq fquot w2.roadNetwork.Nodes minLat maxLat minLong maxLong radius size
            visitedColor searchSeq baseMap with
        | none => (none, w2)
        | some img1 =>
          match paintSeq fquot w2.roadNetwork.Nodes minLat maxLat minLong maxLong radius size
              pathColor shortestPath img1 with
          | none => (none, w2)
          | some img2 => (some ⟨[img2], [0]⟩, w2)

/-! ## Invariants of the search loop -/

/-- Loop invariant of the search, for source `s`.  While the arcs of the
vertex `cur` are being relaxed, `rem` lists those still to do; `rem = []`
at the head of the loop. -/
structure Inv (g : Graph) (s cur : Int) (rem : List Arc) (st : SearchState) : Prop where
  srcFirst : st.settled s = true ∨ ∀ e ∈ st.queue, e.1 = s
  src : st.dist s = some 0
  link : ∀ v d, st.dist v = some d → v ≠ s →
    ∃ u du c, st.pred v = some u ∧ st.settled u = true ∧ st.dist u = some du ∧
      (⟨v, c⟩ : Arc) ∈ arcsOf g u ∧ d = du + c
  traced : ∀ e ∈ st.trace, st.settled e.1 = true ∧ st.dist e.1 = some e.2
  settledTraced : ∀ v, st.settled v = true → v ∈ st.trace.map Prod.fst
  order : ∀ pre e post, st.trace = pre ++ e :: post →
    e.1 = s ∨ ∃ u, st.pred e.1 = some u ∧ u ∈ pre.map Prod.fst
  reach : ∀ v d, st.dist v = some d → DirPath g s v d
  queued : ∀ v d, st.settled v = false → st.dist v = some d → (v, d) ∈ st.queue
  keyed : ∀ e ∈ st.queue, ∃ d, st.dist e.1 = some d ∧ d ≤ e.2
  opt : NonNegWeights g → ∀ v d, st.settled v = true → st.dist v = some d →
    ∀ w, DirPath g s v w → d ≤ w
  relaxed : ∀ u du, st.settled u = true → st.dist u = some du → ∀ a ∈ arcsOf g u,
    (u = cur ∧ a ∈ rem) ∨ st.settled a.Dest = true ∨
      ∃ d, st.dist a.Dest = some d ∧ d ≤ du + a.Dist

/-- Arcs leaving unsettled vertices, counted over the adjacency lists `adjs`
of the vertices `k, k + 1, ...`. -/
def pendingFrom (settled : Int → Bool) : Int → List (List Arc) → Nat
  | _, [] => 0
  | k, adj :: rest => (if settled k = true then 0 else adj.length) + pendingFrom settled (k + 1) rest

/-- Out-degree of `u` read off the adjacency lists `adjs` of the vertices
`k, k + 1, ...`. -/
def degFrom (u : Int) : Int → List (List Arc) → Nat
  | _, [] => 0
  | k, adj :: rest => if u = k then adj.length else degFrom u (k + 1) rest

/-- Termination measure of the loop: queue length plus the arcs not yet relaxed. -/
def workLeft (g : Graph) (st : SearchState) : Nat :=
  st.queue.length + pendingFrom st.settled 0 g.AdjacencyLists

/-- The loop has reached one of its two exits. -/
def Finished (t : Int) (st : SearchState) : Prop :=
  st.queue = [] ∨ st.settled t = true

/-! ## Theorems: parsing and index translation -/

theorem Atoi_isInt64 (s : String) (i : Int) (h : Atoi s = some i) : IsInt64 i := by
  unfold Atoi at h
  unfold IsInt64
  split at h
  · simp at h
  · simp only at h
    split at h
    · simp at h
    · split at h
      · simp at h
      · split at h
        · split at h
          · simp only [Option.some.injEq] at h; omega
          · simp at h
        · split at h
          · simp only [Option.some.injEq] at h; omega
          · simp at h

theorem parseInt_mem_Icc (s : String) (lo hi d : Int) (h : lo ≤ hi) :
    lo ≤ parseInt s lo hi d ∧ parseInt s lo hi d ≤ hi := by
  unfold parseInt
  simp only
  split_ifs <;> omega

theorem wrap64_of_isInt64 (x : Int) (h : IsInt64 x) : wrap64 x = x := by
  unfold wrap64
  unfold IsInt64 at h
  omega

/-- C2: with `min ≤ max`, the result of `parseInt` lies in `[min, max]`,
whatever the string and the default value. -/
theorem parseInt_in_range (s : String) (min max defaultValue : Int) (h : min ≤ max) :
    min ≤ parseInt s min max defaultValue ∧ parseInt s min max defaultValue ≤ max :=
  parseInt_mem_Icc s min max defaultValue h

theorem parseInt_in_range_witness :
    (1 : Int) ≤ 10 ∧ (1 ≤ parseInt "abc" 1 10 50 ∧ parseInt "abc" 1 10 50 ≤ 10) :=
  ⟨by decide, parseInt_in_range "abc" 1 10 50 (by decide)⟩

/-- C1: for a loaded graph with `N ≥ 1` vertices, the `/shortest-path`
handler reaches its call of the search, and both indices it passes are
valid 0-based vertex indices, for all request strings and all random
defaults. -/
theorem shortestPath_indices_valid (g : Graph) (srcForm destForm sizeForm : String)
    (r1 r2 : Int) (hN : 1 ≤ g.Nodes.length) (hlen : (g.Nodes.length : Int) < 2 ^ 63) :
    ∃ src dest size, shortestPathArgs g srcForm destForm sizeForm r1 r2 = some (src, dest, size) ∧
      src = wrap64 (parseInt srcForm 1 (g.Nodes.length : Int) (wrap64 (r1 + 1)) - 1) ∧
      dest = wrap64 (parseInt destForm 1 (g.Nodes.length : Int) (wrap64 (r2 + 1)) - 1) ∧
      validVertex g src ∧ validVertex g dest := by
  have hN1 : (1 : Int) ≤ (g.Nodes.length : Int) := by exact_mod_cast hN
  have key : ∀ (s : String) (d : Int),
      validVertex g (wrap64 (parseInt s 1 (g.Nodes.length : Int) d - 1)) := by
    intro s d
    have hp := parseInt_mem_Icc s 1 (g.Nodes.length : Int) d hN1
    have hw : wrap64 (parseInt s 1 (g.Nodes.length : Int) d - 1)
        = parseInt s 1 (g.Nodes.length : Int) d - 1 := by
      apply wrap64_of_isInt64
      unfold IsInt64
      omega
    rw [hw]
    unfold validVertex
    omega
  refine ⟨_, _, parseInt sizeForm 24 2000 400, ?_, rfl, rfl, key srcForm _, key destForm _⟩
  unfold shortestPathArgs
  simp only
  rw [if_neg (by omega)]

theorem shortestPath_indices_valid_witness :
    ∃ src dest size, shortestPathArgs scenarioA "0" "zz" "" 7 99 = some (src, dest, size) ∧
      src = wrap64 (parseInt "0" 1 (scenarioA.Nodes.length : Int) (wrap64 (7 + 1)) - 1) ∧
      dest = wrap64 (parseInt "zz" 1 (scenarioA.Nodes.length : Int) (wrap64 (99 + 1)) - 1) ∧
      validVertex scenarioA src ∧ validVertex scenarioA dest :=
  shortestPath_indices_valid scenarioA "0" "zz" "" 7 99 (by decide) (by decide)

/-- C4 as stated fails: with a default outside `[min, max]` the result of
`parseInt` on a non-integer string is not the default value. -/
theorem parseInt_default_counterexample :
    Atoi "abc" = none ∧ parseInt "abc" 1 10 50 ≠ 50 := by
  decide

/-- C4 (amended): when `s` is not an integer, `parseInt` returns the default
value clamped like any parsed value - raised to `min` when below it, then
lowered to `max` when above it - hence the default value itself whenever
`min ≤ defaultValue ≤ max`. -/
theorem parseInt_default_clamped (s : String) (min max defaultValue : Int)
    (h : Atoi s = none) :
    parseInt s min max defaultValue
      = (if (if defaultValue < min then min else defaultValue) > max then max
         else (if defaultValue < min then min else defaultValue)) ∧
    (min ≤ defaultValue → defaultValue ≤ max → parseInt s min max defaultValue = defaultValue) := by
  constructor
  · unfold parseInt
    rw [h]
  · intro h1 h2
    unfold parseInt
    rw [h]
    simp only
    split_ifs <;> omega

theorem parseInt_default_clamped_witness :
    Atoi "abc" = none ∧
    (parseInt "abc" 1 10 5
      = (if (if (5 : Int) < 1 then 1 else 5) > 10 then 10 else (if (5 : Int) < 1 then 1 else 5)) ∧
    ((1 : Int) ≤ 5 → (5 : Int) ≤ 10 → parseInt "abc" 1 10 5 = 5)) :=
  ⟨by decide, parseInt_default_clamped "abc" 1 10 5 (by decide)⟩

theorem idx?_isSome {α : Type} (xs : List α) (i : Int) (h0 : 0 ≤ i)
    (h1 : i < (xs.length : Int)) : ∃ c, idx? xs i = some c ∧ c ∈ xs := by
  have hlt : i.toNat < xs.length := by omega
  refine ⟨xs[i.toNat], ?_, List.getElem_mem _⟩
  unfold idx?
  rw [if_pos h0, List.get?_eq_getElem?, List.getElem?_eq_getElem hlt]

theorem idx?_mem {α : Type} (xs : List α) (i : Int) (c : α) (h : idx? xs i = some c) :
    c ∈ xs := by
  unfold idx? at h
  split at h
  · rw [List.get?_eq_getElem?] at h
    exact List.getElem?_mem h
  · simp at h

theorem edgeLines_complete (nodes : List Cord) (adj : List Arc)
    (h : ∀ a ∈ adj, 0 ≤ a.Dest ∧ a.Dest < (nodes.length : Int)) :
    (edgeLines nodes adj).2 = true := by
  induction adj with
  | nil => rfl
  | cons a as ih =>
    obtain ⟨c, hc, _⟩ := idx?_isSome nodes a.Dest (h a (List.mem_cons_self _ _)).1
      (h a (List.mem_cons_self _ _)).2
    unfold edgeLines
    rw [hc]
    exact ih (fun b hb => h b (List.mem_cons_of_mem _ hb))

/-- C3: for an integer parameter `i` and a graph of `N` vertices, the
`/vertex` handler answers "error: index out of range" exactly when `i < 1`
or `i > N`; otherwise `i - 1` is a valid 0-based index, the vertex read is
`Nodes[i - 1]`, and on a graph satisfying the data-model invariant no index
expression of the handler is out of range. -/
theorem vertexHandler_index (g : Graph) (iForm : String) (i : Int)
    (h : Atoi iForm = some i) (hlen : (g.Nodes.length : Int) < 2 ^ 63) :
    ((vertexHandler g iForm).1 = [Line.errRange] ↔ (i < 1 ∨ i > (g.Nodes.length : Int))) ∧
    (¬ (i < 1 ∨ i > (g.Nodes.length : Int)) →
      validVertex g (i - 1) ∧
      ∃ c, idx? g.Nodes (i - 1) = some c ∧
        (vertexHandler g iForm).1.head? = some (Line.cordinates c) ∧
        (g.WellFormed → (vertexHandler g iForm).2 = true)) := by
  have hi := Atoi_isInt64 iForm i h
  unfold IsInt64 at hi
  by_cases hr : i < 1 ∨ i > (g.Nodes.length : Int)
  · have hcond : wrap64 (i - 1) < 0 ∨ wrap64 (i - 1) ≥ (g.Nodes.length : Int) := by
      unfold wrap64
      omega
    have hout : vertexHandler g iForm = ([Line.errRange], true) := by
      unfold vertexHandler
      rw [h]
      simp only
      rw [if_pos hcond]
    refine ⟨⟨fun _ => hr, fun _ => by rw [hout]⟩, fun hn => absurd hr hn⟩
  · have hw : wrap64 (i - 1) = i - 1 := by
      apply wrap64_of_isInt64
      unfold IsInt64
      omega
    have hcond : ¬ (wrap64 (i - 1) < 0 ∨ wrap64 (i - 1) ≥ (g.Nodes.length : Int)) := by
      rw [hw]
      omega
    obtain ⟨c, hc, _⟩ := idx?_isSome g.Nodes (i - 1) (by omega) (by omega)
    have hshape : ∃ ls b, vertexHandler g iForm = (Line.cordinates c :: ls, b) ∧
        (g.WellFormed → b = true) := by
      unfold vertexHandler
      rw [h]
      simp only
      rw [if_neg hcond, hw, hc]
      simp only
      cases hadj : idx? g.AdjacencyLists (i - 1) with
      | none =>
        refine ⟨_, _, rfl, ?_⟩
        intro hwf
        obtain ⟨a, ha, _⟩ := idx?_isSome g.AdjacencyLists (i - 1) (by omega)
          (by rw [hwf.1]; omega)
        rw [ha] at hadj
        exact absurd hadj (by simp)
      | some adj =>
        refine ⟨_, _, rfl, ?_⟩
        intro hwf
        exact edgeLines_complete g.Nodes adj (hwf.2 adj (idx?_mem _ _ _ hadj))
    obtain ⟨ls, b, hv, hb⟩ := hshape
    refine ⟨⟨fun hE => ?_, fun hn => absurd hn hr⟩, fun _ => ⟨?_, c, hc, ?_, ?_⟩⟩
    · rw [hv] at hE
      simp at hE
    · unfold validVertex
      omega
    · rw [hv]
      rfl
    · intro hwf
      rw [hv]
      exact hb hwf

theorem vertexHandler_index_witness :
    ((vertexHandler scenarioA "2").1 = [Line.errRange] ↔
      ((2 : Int) < 1 ∨ (2 : Int) > (scenarioA.Nodes.length : Int))) ∧
    (¬ ((2 : Int) < 1 ∨ (2 : Int) > (scenarioA.Nodes.length : Int)) →
      validVertex scenarioA (2 - 1) ∧
      ∃ c, idx? scenarioA.Nodes (2 - 1) = some c ∧
        (vertexHandler scenarioA "2").1.head? = some (Line.cordinates c) ∧
        (scenarioA.WellFormed → (vertexHandler scenarioA "2").2 = true)) :=
  vertexHandler_index scenarioA "2" 2 (by decide) (by decide)

/-! ## Theorems: coordinate range -/

theorem rangeStep_bounds (r : CordRange) (c : Cord) :
    (rangeStep r c).minLat ≤ r.minLat ∧ (rangeStep r c).minLat ≤ c.Lat ∧
    r.maxLat ≤ (rangeStep r c).maxLat ∧ c.Lat ≤ (rangeStep r c).maxLat ∧
    (rangeStep r c).minLong ≤ r.minLong ∧ (rangeStep r c).minLong ≤ c.Long ∧
    r.maxLong ≤ (rangeStep r c).maxLong ∧ c.Long ≤ (rangeStep r c).maxLong := by
  unfold rangeStep
  simp only
  split_ifs <;> omega

theorem rangeStep_attained (r : CordRange) (c : Cord) :
    ((rangeStep r c).minLat = r.minLat ∨ (rangeStep r c).minLat = c.Lat) ∧
    ((rangeStep r c).maxLat = r.maxLat ∨ (rangeStep r c).maxLat = c.Lat) ∧
    ((rangeStep r c).minLong = r.minLong ∨ (rangeStep r c).minLong = c.Long) ∧
    ((rangeStep r c).maxLong = r.maxLong ∨ (rangeStep r c).maxLong = c.Long) := by
  unfold rangeStep
  simp only
  split_ifs <;> simp

theorem rangeLoop_spec (cords : List Cord) :
    ∀ (is : List Int) (r0 : CordRange),
      (∀ i ∈ is, 0 ≤ i ∧ i < (cords.length : Int)) →
      ∃ r, rangeLoop cords is r0 = some r ∧
        (r.minLat ≤ r0.minLat ∧ r0.maxLat ≤ r.maxLat ∧
          r.minLong ≤ r0.minLong ∧ r0.maxLong ≤ r.maxLong) ∧
        (∀ i ∈ is, ∀ c, idx? cords i = some c →
          r.minLat ≤ c.Lat ∧ c.Lat ≤ r.maxLat ∧ r.minLong ≤ c.Long ∧ c.Long ≤ r.maxLong) ∧
        (r.minLat = r0.minLat ∨ ∃ i ∈ is, ∃ c, idx? cords i = some c ∧ c.Lat = r.minLat) ∧
        (r.maxLat = r0.maxLat ∨ ∃ i ∈ is, ∃ c, idx? cords i = some c ∧ c.Lat = r.maxLat) ∧
        (r.minLong = r0.minLong ∨ ∃ i ∈ is, ∃ c, idx? cords i = some c ∧ c.Long = r.minLong) ∧
        (r.maxLong = r0.maxLong ∨ ∃ i ∈ is, ∃ c, idx? cords i = some c ∧ c.Long = r.maxLong) := by
  intro is
  induction is with
  | nil =>
    intro r0 _
    refine ⟨r0, rfl, ⟨le_refl _, le_refl _, le_refl _, le_refl _⟩, ?_, Or.inl rfl, Or.inl rfl,
      Or.inl rfl, Or.inl rfl⟩
    intro i hi
    simp at hi
  | cons i is ih =>
    intro r0 hv
    obtain ⟨c, hc, _⟩ := idx?_isSome cords i (hv i (List.mem_cons_self _ _)).1
      (hv i (List.mem_cons_self _ _)).2
    obtain ⟨r, hr, ⟨m1, m2, m3, m4⟩, hall, a1, a2, a3, a4⟩ :=
      ih (rangeStep r0 c) (fun j hj => hv j (List.mem_cons_of_mem _ hj))
    obtain ⟨b1, b2, b3, b4, b5, b6, b7, b8⟩ := rangeStep_bounds r0 c
    obtain ⟨s1, s2, s3, s4⟩ := rangeStep_attained r0 c
    have hloop : rangeLoop cords (i :: is) r0 = some r := by
      unfold rangeLoop
      rw [hc]
      exact hr
    have lift : ∀ (P : Cord → Prop), (∃ j ∈ is, ∃ c', idx? cords j = some c' ∧ P c') →
        ∃ j ∈ i :: is, ∃ c', idx? cords j = some c' ∧ P c' := by
      intro P hP
      obtain ⟨j, hj, c', hc', hp⟩ := hP
      exact ⟨j, List.mem_cons_of_mem _ hj, c', hc', hp⟩
    have here : ∀ (P : Cord → Prop), P c → ∃ j ∈ i :: is, ∃ c', idx? cords j = some c' ∧ P c' :=
      fun P hp => ⟨i, List.mem_cons_self _ _, c, hc, hp⟩
    refine ⟨r, hloop, ⟨by omega, by omega, by omega, by omega⟩, ?_, ?_, ?_, ?_, ?_⟩
    · intro j hj c' hc'
      rcases List.mem_cons.mp hj with hji | hji
      · subst hji
        rw [hc] at hc'
        cases hc'
        refine ⟨by omega, by omega, by omega, by omega⟩
      · exact hall j hji c' hc'
    · rcases a1 with e | e
      · rcases s1 with e' | e'
        · exact Or.inl (by omega)
        · exact Or.inr (here (fun c' => c'.Lat = r.minLat) (by omega))
      · exact Or.inr (lift (fun c' => c'.Lat = r.minLat) e)
    · rcases a2 with e | e
      · rcases s2 with e' | e'
        · exact Or.inl (by omega)
        · exact Or.inr (here (fun c' => c'.Lat = r.maxLat) (by omega))
      · exact Or.inr (lift (fun c' => c'.Lat = r.maxLat) e)
    · rcases a3 with e | e
      · rcases s3 with e' | e'
        · exact Or.inl (by omega)
        · exact Or.inr (here (fun c' => c'.Long = r.minLong) (by omega))
      · exact Or.inr (lift (fun c' => c'.Long = r.minLong) e)
    · rcases a4 with e | e
      · rcases s4 with e' | e'
        · exact Or.inl (by omega)
        · exact Or.inr (here (fun c' => c'.Long = r.maxLong) (by omega))
      · exact Or.inr (lift (fun c' => c'.Long = r.maxLong) e)

/-- C8: for a non-empty list of valid indices into coordinates that all lie
within ±180000000 micro-degrees, `findCordinateRange` returns (without
panicking) the exact range of the selected coordinates: each of the four
results bounds every selected coordinate and is attained by one of them. -/
theorem findCordinateRange_exact (indices : List Int) (cords : List Cord)
    (hne : indices ≠ [])
    (hvalid : ∀ i ∈ indices, 0 ≤ i ∧ i < (cords.length : Int))
    (hbound : ∀ c ∈ cords, -180000000 ≤ c.Lat ∧ c.Lat ≤ 180000000 ∧
      -180000000 ≤ c.Long ∧ c.Long ≤ 180000000) :
    ∃ r, findCordinateRange indices cords = some r ∧
      (∀ i ∈ indices, ∀ c, idx? cords i = some c →
        r.minLat ≤ c.Lat ∧ c.Lat ≤ r.maxLat ∧ r.minLong ≤ c.Long ∧ c.Long ≤ r.maxLong) ∧
      (∃ i ∈ indices, ∃ c, idx? cords i = some c ∧ c.Lat = r.minLat) ∧
      (∃ i ∈ indices, ∃ c, idx? cords i = some c ∧ c.Lat = r.maxLat) ∧
      (∃ i ∈ indices, ∃ c, idx? cords i = some c ∧ c.Long = r.minLong) ∧
      (∃ i ∈ indices, ∃ c, idx? cords i = some c ∧ c.Long = r.maxLong) := by
  obtain ⟨r, hr, _, hall, a1, a2, a3, a4⟩ :=
    rangeLoop_spec cords indices ⟨180000000, -180000000, 180000000, -180000000⟩ hvalid
  obtain ⟨i0, rest, rfl⟩ := List.exists_cons_of_ne_nil hne
  obtain ⟨c0, hc0, hmem⟩ := idx?_isSome cords i0 (hvalid i0 (List.mem_cons_self _ _)).1
    (hvalid i0 (List.mem_cons_self _ _)).2
  have hb := hbound c0 hmem
  have h0 := hall i0 (List.mem_cons_self _ _) c0 hc0
  refine ⟨r, hr, hall, ?_, ?_, ?_, ?_⟩
  · rcases a1 with e | e
    · exact ⟨i0, List.mem_cons_self _ _, c0, hc0, by simp only at e; omega⟩
    · exact e
  · rcases a2 with e | e
    · exact ⟨i0, List.mem_cons_self _ _, c0, hc0, by simp only at e; omega⟩
    · exact e
  · rcases a3 with e | e
    · exact ⟨i0, List.mem_cons_self _ _, c0, hc0, by simp only at e; omega⟩
    · exact e
  · rcases a4 with e | e
    · exact ⟨i0, List.mem_cons_self _ _, c0, hc0, by simp only at e; omega⟩
    · exact e

theorem findCordinateRange_exact_witness :
    ∃ r, findCordinateRange [2, 0] scenarioA.Nodes = some r ∧
      (∀ i ∈ [(2 : Int), 0], ∀ c, idx? scenarioA.Nodes i = some c →
        r.minLat ≤ c.Lat ∧ c.Lat ≤ r.maxLat ∧ r.minLong ≤ c.Long ∧ c.Long ≤ r.maxLong) ∧
      (∃ i ∈ [(2 : Int), 0], ∃ c, idx? scenarioA.Nodes i = some c ∧ c.Lat = r.minLat) ∧
      (∃ i ∈ [(2 : Int), 0], ∃ c, idx? scenarioA.Nodes i = some c ∧ c.Lat = r.maxLat) ∧
      (∃ i ∈ [(2 : Int), 0], ∃ c, idx? scenarioA.Nodes i = some c ∧ c.Long = r.minLong) ∧
      (∃ i ∈ [(2 : Int), 0], ∃ c, idx? scenarioA.Nodes i = some c ∧ c.Long = r.maxLong) :=
  findCordinateRange_exact [2, 0] scenarioA.Nodes (by decide) (by decide) (by decide)

/-! ## Theorems: the shared graph is read-only -/

/-- C5: `makeMap`, `findCordinateRange` (as called on the global graph) and
`drawShortestPath` (around any search that returns its two sequences)
return the world they were given: `roadNetwork`, with its `Nodes` and
`AdjacencyLists`, is exactly what it was before the call, whatever the
arguments and whether or not the call panics; `setup` is the one operation
whose resulting world holds another graph. -/
theorem request_operations_preserve_graph
    (search : Graph → Int → Int → Option (List Int × List Int)) (fquot : Int → Int → Int)
    (w : World) (a b c d : Int) (indices : List Int) (g : Graph) :
    (makeMap fquot a b c d w).2 = w ∧
    (findCordinateRangeIn indices w).2 = w ∧
    (drawShortestPath search fquot a b c w).2 = w ∧
    setup (some g) w = some { roadNetwork := g } := by
  have hmk : ∀ (p q r s : Int) (w' : World), (makeMap fquot p q r s w').2 = w' := by
    intro p q r s w'
    unfold makeMap
    split <;> rfl
  refine ⟨hmk a b c d w, rfl, ?_, rfl⟩
  unfold drawShortestPath
  cases hs : search w.roadNetwork a b with
  | none => rfl
  | some pr =>
    obtain ⟨sp, sq⟩ := pr
    simp only [findCordinateRangeIn]
    cases hf : findCordinateRange sq w.roadNetwork.Nodes with
    | none => rfl
    | some r =>
      simp only
      generalize hm : makeMap fquot _ _ _ c w = res
      have h2 : res.2 = w := by
        rw [← hm]
        exact hmk _ _ _ _ w
      obtain ⟨o, w2⟩ := res
      simp only at h2
      subst h2
      cases o with
      | none => rfl
      | some img =>
        simp only
        split
        · rfl
        · split <;> rfl

/-! ## Theorems: the priority queue and relaxation -/

theorem popMin_eq_none (q : List (Int × Int)) (h : popMin q = none) : q = [] := by
  cases q with
  | nil => rfl
  | cons e es =>
    unfold popMin at h
    split at h
    · simp at h
    · split at h <;> simp at h

theorem popMin_spec : ∀ (q : List (Int × Int)) (m : Int × Int) (rest : List (Int × Int)),
    popMin q = some (m, rest) →
      m ∈ q ∧ (∀ e ∈ q, m.2 ≤ e.2) ∧ (∀ e ∈ q, e = m ∨ e ∈ rest) ∧ (∀ e ∈ rest, e ∈ q) ∧
      rest.length + 1 = q.length := by
  intro q
  induction q with
  | nil =>
    intro m rest h
    simp [popMin] at h
  | cons e es ih =>
    intro m rest h
    unfold popMin at h
    cases hp : popMin es with
    | none =>
      rw [hp] at h
      simp only [Option.some.injEq, Prod.mk.injEq] at h
      obtain ⟨rfl, rfl⟩ := h
      have hes := popMin_eq_none es hp
      subst hes
      simp
    | some pr =>
      obtain ⟨m', rest'⟩ := pr
      rw [hp] at h
      obtain ⟨hm, hmin, hsplit, hsub, hlen⟩ := ih m' rest' hp
      simp only at h
      split at h
      · rename_i hle
        simp only [Option.some.injEq, Prod.mk.injEq] at h
        obtain ⟨rfl, rfl⟩ := h
        refine ⟨List.mem_cons_self _ _, ?_, ?_, ?_, rfl⟩
        · intro x hx
          rcases List.mem_cons.mp hx with rfl | hx
          · exact le_refl _
          · exact le_trans hle (hmin x hx)
        · intro x hx
          rcases List.mem_cons.mp hx with rfl | hx
          · exact Or.inl rfl
          · exact Or.inr hx
        · intro x hx
          exact List.mem_cons_of_mem _ hx
      · rename_i hle
        simp only [Option.some.injEq, Prod.mk.injEq] at h
        obtain ⟨rfl, rfl⟩ := h
        refine ⟨List.mem_cons_of_mem _ hm, ?_, ?_, ?_, ?_⟩
        · intro x hx
          rcases List.mem_cons.mp hx with rfl | hx
          · omega
          · exact hmin x hx
        · intro x hx
          rcases List.mem_cons.mp hx with rfl | hx
          · exact Or.inr (List.mem_cons_self _ _)
          · rcases hsplit x hx with h1 | h1
            · exact Or.inl h1
            · exact Or.inr (List.mem_cons_of_mem _ h1)
        · intro x hx
          rcases List.mem_cons.mp hx with rfl | hx
          · exact List.mem_cons_self _ _
          · exact List.mem_cons_of_mem _ (hsub x hx)
        · simp only [List.length_cons]
          omega

theorem relax_settled (u du : Int) (st : SearchState) (a : Arc) :
    (relax u du st a).settled = st.settled := by
  unfold relax
  simp only
  split <;> rfl

theorem relax_queue_length (u du : Int) (st : SearchState) (a : Arc) :
    (relax u du st a).queue.length ≤ st.queue.length + 1 := by
  unfold relax
  simp only
  split
  · simp
  · omega

theorem foldl_relax_settled (u du : Int) (as : List Arc) :
    ∀ st : SearchState, (as.foldl (relax u du) st).settled = st.settled := by
  induction as with
  | nil => intro st; rfl
  | cons a as ih =>
    intro st
    rw [List.foldl_cons, ih, relax_settled]

theorem foldl_relax_queue_length (u du : Int) (as : List Arc) :
    ∀ st : SearchState, (as.foldl (relax u du) st).queue.length ≤ st.queue.length + as.length := by
  induction as with
  | nil => intro st; simp
  | cons a as ih =>
    intro st
    rw [List.foldl_cons]
    have h1 := ih (relax u du st a)
    have h2 := relax_queue_length u du st a
    simp only [List.length_cons]
    omega

/-! ## Theorems: the loop invariant -/

theorem arcsOf_mem (g : Graph) (u : Int) (a : Arc) (h : a ∈ arcsOf g u) :
    ∃ adj ∈ g.AdjacencyLists, a ∈ adj := by
  unfold arcsOf at h
  split at h
  · rename_i adj hadj
    exact ⟨adj, idx?_mem _ _ _ hadj, h⟩
  · simp at h

theorem Inv_init (g : Graph) (s cur : Int) : Inv g s cur [] (initState s) := by
  have hd : ∀ v d, (initState s).dist v = some d → v = s ∧ d = 0 := by
    intro v d h
    unfold initState at h
    simp only at h
    by_cases hv : v = s
    · subst hv
      rw [Function.update_same] at h
      exact ⟨rfl, by cases h; rfl⟩
    · rw [Function.update_noteq hv] at h
      simp at h
  refine ⟨Or.inr ?_, ?_, ?_, ?_, ?_, ?_, ?_, ?_, ?_, ?_, ?_⟩
  · intro e he
    simp only [initState, List.mem_singleton] at he
    rw [he]
  · simp [initState]
  · intro v d h hne
    exact absurd (hd v d h).1 hne
  · intro e he
    simp [initState] at he
  · intro v hv
    simp [initState] at hv
  · intro pre e post h
    simp [initState] at h
  · intro v d h
    obtain ⟨rfl, rfl⟩ := hd v d h
    exact DirPath.nil
  · intro v d _ h
    obtain ⟨rfl, rfl⟩ := hd v d h
    simp [initState]
  · intro e he
    simp only [initState, List.mem_singleton] at he
    subst he
    exact ⟨0, by simp [initState], le_refl _⟩
  · intro _ v d hv
    simp [initState] at hv
  · intro u du hu
    simp [initState] at hu

theorem Inv_relax (g : Graph) (s u du : Int) (a : Arc) (rem : List Arc) (st : SearchState)
    (hI : Inv g s u (a :: rem) st) (hss : st.settled s = true) (hsu : st.settled u = true)
    (hdu : st.dist u = some du) (ha : a ∈ arcsOf g u) :
    Inv g s u rem (relax u du st a) := by
  by_cases hc : st.settled a.Dest = false ∧
      (match st.dist a.Dest with
        | none => true
        | some dv => decide (du + a.Dist < dv)) = true
  · obtain ⟨hv, himp0⟩ := hc
    have himp : ∀ dv, st.dist a.Dest = some dv → du + a.Dist < dv := by
      intro dv hdv
      rw [hdv] at himp0
      simpa using himp0
    have hne : ∀ x, st.settled x = true → x ≠ a.Dest := by
      intro x hx hxa
      rw [hxa, hv] at hx
      exact absurd hx (by simp)
    have hrel : relax u du st a =
        { st with
          dist := Function.update st.dist a.Dest (some (du + a.Dist))
          pred := Function.update st.pred a.Dest (some u)
          queue := st.queue ++ [(a.Dest, du + a.Dist)] } := by
      unfold relax
      simp only
      rw [if_pos ⟨hv, himp0⟩]
    rw [hrel]
    refine ⟨Or.inl hss, ?_, ?_, ?_, ?_, ?_, ?_, ?_, ?_, ?_, ?_⟩
    · show Function.update st.dist a.Dest (some (du + a.Dist)) s = some 0
      rw [Function.update_noteq (hne s hss)]
      exact hI.src
    · intro x d hx hxs
      change Function.update st.dist a.Dest (some (du + a.Dist)) x = some d at hx
      show ∃ u' du' c, Function.update st.pred a.Dest (some u) x = some u' ∧
        st.settled u' = true ∧
        Function.update st.dist a.Dest (some (du + a.Dist)) u' = some du' ∧
        (⟨x, c⟩ : Arc) ∈ arcsOf g u' ∧ d = du' + c
      by_cases hxa : x = a.Dest
      · subst hxa
        rw [Function.update_same] at hx
        refine ⟨u, du, a.Dist, by rw [Function.update_same], hsu, ?_, ha, ?_⟩
        · rw [Function.update_noteq (hne u hsu)]
          exact hdu
        · cases hx
          rfl
      · rw [Function.update_noteq hxa] at hx
        obtain ⟨u', du', c, h1, h2, h3, h4, h5⟩ := hI.link x d hx hxs
        refine ⟨u', du', c, ?_, h2, ?_, h4, h5⟩
        · rw [Function.update_noteq hxa]
          exact h1
        · rw [Function.update_noteq (hne u' h2)]
          exact h3
    · intro e he
      obtain ⟨h1, h2⟩ := hI.traced e he
      refine ⟨h1, ?_⟩
      show Function.update st.dist a.Dest (some (du + a.Dist)) e.1 = some e.2
      rw [Function.update_noteq (hne e.1 h1)]
      exact h2
    · exact hI.settledTraced
    · intro pre e post htr
      change st.trace = pre ++ e :: post at htr
      have hes : st.settled e.1 = true :=
        (hI.traced e (by rw [htr]; simp)).1
      rcases hI.order pre e post htr with h | ⟨p, hp, hmem⟩
      · exact Or.inl h
      · refine Or.inr ⟨p, ?_, hmem⟩
        show Function.update st.pred a.Dest (some u) e.1 = some p
        rw [Function.update_noteq (hne e.1 hes)]
        exact hp
    · intro x d hx
      change Function.update st.dist a.Dest (some (du + a.Dist)) x = some d at hx
      by_cases hxa : x = a.Dest
      · subst hxa
        rw [Function.update_same] at hx
        cases hx
        exact DirPath.snoc a (hI.reach u du hdu) ha
      · rw [Function.update_noteq hxa] at hx
        exact hI.reach x d hx
    · intro x d hxs hx
      change Function.update st.dist a.Dest (some (du + a.Dist)) x = some d at hx
      show (x, d) ∈ st.queue ++ [(a.Dest, du + a.Dist)]
      by_cases hxa : x = a.Dest
      · subst hxa
        rw [Function.update_same] at hx
        cases hx
        simp
      · rw [Function.update_noteq hxa] at hx
        exact List.mem_append_left _ (hI.queued x d hxs hx)
    · intro e he
      change e ∈ st.queue ++ [(a.Dest, du + a.Dist)] at he
      show ∃ d, Function.update st.dist a.Dest (some (du + a.Dist)) e.1 = some d ∧ d ≤ e.2
      rcases List.mem_append.mp he with he | he
      · obtain ⟨d, hd, hle⟩ := hI.keyed e he
        by_cases hea : e.1 = a.Dest
        · refine ⟨du + a.Dist, by rw [hea, Function.update_same], ?_⟩
          rw [hea] at hd
          have := himp d hd
          omega
        · exact ⟨d, by rw [Function.update_noteq hea]; exact hd, hle⟩
      · simp only [List.mem_singleton] at he
        subst he
        exact ⟨du + a.Dist, by rw [Function.update_same], le_refl _⟩
    · intro hw x d hxs hx
      change Function.update st.dist a.Dest (some (du + a.Dist)) x = some d at hx
      rw [Function.update_noteq (hne x hxs)] at hx
      exact hI.opt hw x d hxs hx
    · intro u' du' hu' hdu' a' ha'
      change Function.update st.dist a.Dest (some (du + a.Dist)) u' = some du' at hdu'
      show (u' = u ∧ a' ∈ rem) ∨ st.settled a'.Dest = true ∨
        ∃ d, Function.update st.dist a.Dest (some (du + a.Dist)) a'.Dest = some d ∧
          d ≤ du' + a'.Dist
      rw [Function.update_noteq (hne u' hu')] at hdu'
      have hthird : ∀ d, st.dist a'.Dest = some d → d ≤ du' + a'.Dist →
          ∃ d', Function.update st.dist a.Dest (some (du + a.Dist)) a'.Dest = some d' ∧
            d' ≤ du' + a'.Dist := by
        intro d hd hle
        by_cases hda : a'.Dest = a.Dest
        · refine ⟨du + a.Dist, by rw [hda, Function.update_same], ?_⟩
          rw [hda] at hd
          have := himp d hd
          omega
        · exact ⟨d, by rw [Function.update_noteq hda]; exact hd, hle⟩
      rcases hI.relaxed u' du' hu' hdu' a' ha' with ⟨hu, hmem⟩ | h | ⟨d, hd, hle⟩
      · rcases List.mem_cons.mp hmem with haa | hmem
        · subst haa
          subst hu
          rw [hdu] at hdu'
          cases hdu'
          exact Or.inr (Or.inr ⟨du + a'.Dist, by rw [Function.update_same], le_refl _⟩)
        · exact Or.inl ⟨hu, hmem⟩
      · exact Or.inr (Or.inl h)
      · exact Or.inr (Or.inr (hthird d hd hle))
  · have hrel : relax u du st a = st := by
      unfold relax
      simp only
      rw [if_neg hc]
    rw [hrel]
    refine ⟨hI.srcFirst, hI.src, hI.link, hI.traced, hI.settledTraced, hI.order, hI.reach,
      hI.queued, hI.keyed, hI.opt, ?_⟩
    intro u' du' hu' hdu' a' ha'
    rcases hI.relaxed u' du' hu' hdu' a' ha' with ⟨hu, hmem⟩ | h | h
    · rcases List.mem_cons.mp hmem with haa | hmem
      · subst haa
        subst hu
        rw [hdu] at hdu'
        cases hdu'
        by_cases hv : st.settled a'.Dest = true
        · exact Or.inr (Or.inl hv)
        · have hv' : st.settled a'.Dest = false := by simpa using hv
          cases hd : st.dist a'.Dest with
          | none =>
            exfalso
            apply hc
            rw [hd]
            exact ⟨hv', rfl⟩
          | some dv =>
            refine Or.inr (Or.inr ⟨dv, rfl, ?_⟩)
            by_contra hlt
            apply hc
            rw [hd]
            exact ⟨hv', by simpa using hlt⟩
      · exact Or.inl ⟨hu, hmem⟩
    · exact Or.inr (Or.inl h)
    · exact Or.inr (Or.inr h)

theorem relax_dist_of_settled (u du : Int) (st : SearchState) (a : Arc) (x : Int)
    (hx : st.settled x = true) : (relax u du st a).dist x = st.dist x := by
  unfold relax
  simp only
  split
  · rename_i hc
    have hne : x ≠ a.Dest := by
      intro hxa
      rw [hxa, hc.1] at hx
      exact absurd hx (by simp)
    show Function.update st.dist a.Dest _ x = st.dist x
    rw [Function.update_noteq hne]
  · rfl

theorem Inv_foldl_relax (g : Graph) (s u du : Int) :
    ∀ (as : List Arc) (st : SearchState), (∀ a ∈ as, a ∈ arcsOf g u) → Inv g s u as st →
      st.settled s = true → st.settled u = true → st.dist u = some du →
      Inv g s u [] (as.foldl (relax u du) st) := by
  intro as
  induction as with
  | nil =>
    intro st _ hI _ _ _
    exact hI
  | cons a as ih =>
    intro st hsub hI hss hsu hdu
    rw [List.foldl_cons]
    apply ih
    · exact fun b hb => hsub b (List.mem_cons_of_mem _ hb)
    · exact Inv_relax g s u du a as st hI hss hsu hdu (hsub a (List.mem_cons_self _ _))
    · rw [relax_settled]; exact hss
    · rw [relax_settled]; exact hsu
    · rw [relax_dist_of_settled u du st a u hsu]; exact hdu

theorem nonneg_of_arcsOf (g : Graph) (hw : NonNegWeights g) (u : Int) (a : Arc)
    (h : a ∈ arcsOf g u) : 0 ≤ a.Dist := by
  obtain ⟨adj, hadj, ha⟩ := arcsOf_mem g u a h
  exact hw adj hadj a ha

/-- Every path from the source meets, at or below its weight, either the
tentative distance of its end vertex or that of an unsettled vertex. -/
theorem frontier (g : Graph) (s cur : Int) (st : SearchState) (hI : Inv g s cur [] st)
    (hw : NonNegWeights g) (v w : Int) (hp : DirPath g s v w) :
    ∃ y dy, st.dist y = some dy ∧ dy ≤ w ∧ (y = v ∨ st.settled y = false) := by
  induction hp with
  | nil => exact ⟨s, 0, hI.src, le_refl _, Or.inl rfl⟩
  | snoc a hp' ha ih =>
    rename_i v' w'
    have hnn := nonneg_of_arcsOf g hw v' a ha
    obtain ⟨y, dy, hy, hle, hcase⟩ := ih
    have hun : st.settled y = false →
        ∃ y dy, st.dist y = some dy ∧ dy ≤ w' + a.Dist ∧ (y = a.Dest ∨ st.settled y = false) :=
      fun h => ⟨y, dy, hy, by omega, Or.inr h⟩
    rcases hcase with hyv | hyu
    · subst hyv
      cases hs : st.settled y with
      | false => exact hun hs
      | true =>
        rcases hI.relaxed y dy hs hy a ha with ⟨_, hmem⟩ | hsd | ⟨d, hd, hdle⟩
        · simp at hmem
        · have hdist : ∃ d, st.dist a.Dest = some d := by
            obtain ⟨e, he, hev⟩ := List.mem_map.mp (hI.settledTraced a.Dest hsd)
            exact ⟨e.2, by rw [← hev]; exact (hI.traced e he).2⟩
          obtain ⟨d, hd⟩ := hdist
          exact ⟨a.Dest, d, hd, hI.opt hw a.Dest d hsd hd _ (DirPath.snoc a hp' ha), Or.inl rfl⟩
        · exact ⟨a.Dest, d, hd, by omega, Or.inl rfl⟩
    · exact hun hyu

theorem snoc_eq_split {α : Type} (pre post tr : List α) (e x : α)
    (h : tr ++ [x] = pre ++ e :: post) :
    (post = [] ∧ pre = tr ∧ e = x) ∨ ∃ post', post = post' ++ [x] ∧ tr = pre ++ e :: post' := by
  rcases List.eq_nil_or_concat post with rfl | ⟨L, b, hLb⟩
  swap
  · rw [List.concat_eq_append] at hLb
    subst hLb
    have h' : tr ++ [x] = (pre ++ e :: L) ++ [b] := by
      rw [h]
      simp
    obtain ⟨h1, h2⟩ := List.append_inj' h' rfl
    simp only [List.cons.injEq, and_true] at h2
    subst h2
    exact Or.inr ⟨L, rfl, h1⟩
  · obtain ⟨h1, h2⟩ := List.append_inj' h rfl
    simp only [List.cons.injEq, and_true] at h2
    exact Or.inl ⟨rfl, h1.symm, h2.symm⟩

theorem update_true_mono (settled : Int → Bool) (u x : Int) (h : settled x = true) :
    Function.update settled u true x = true := by
  by_cases hx : x = u
  · rw [hx, Function.update_same]
  · rw [Function.update_noteq hx]
    exact h

theorem Inv_settle (g : Graph) (s cur u d : Int) (rest : List (Int × Int)) (st : SearchState)
    (hI : Inv g s cur [] st) (hpop : popMin st.queue = some ((u, d), rest))
    (hu : st.settled u = false) :
    Inv g s u (arcsOf g u) (settle st u d rest) ∧ st.dist u = some d ∧
      (settle st u d rest).settled s = true := by
  obtain ⟨hmem, hmin, hsplit, hsub, _⟩ := popMin_spec st.queue (u, d) rest hpop
  have hdu : st.dist u = some d := by
    obtain ⟨d', hd', hle⟩ := hI.keyed (u, d) hmem
    have h2 := hmin (u, d') (hI.queued u d' hu hd')
    simp only at hd' hle h2
    have : d' = d := by omega
    rw [← this]
    exact hd'
  have hss : Function.update st.settled u true s = true := by
    by_cases hus : s = u
    · rw [hus, Function.update_same]
    · rw [Function.update_noteq hus]
      rcases hI.srcFirst with h | h
      · exact h
      · exact absurd (h (u, d) hmem).symm hus
  have hunset : ∀ x, Function.update st.settled u true x = false →
      x ≠ u ∧ st.settled x = false := by
    intro x hx
    by_cases hxu : x = u
    · rw [hxu, Function.update_same] at hx
      exact absurd hx (by simp)
    · rw [Function.update_noteq hxu] at hx
      exact ⟨hxu, hx⟩
  refine ⟨⟨Or.inl hss, hI.src, ?_, ?_, ?_, ?_, hI.reach, ?_, ?_, ?_, ?_⟩, hdu, hss⟩
  · intro v dv hv hvs
    obtain ⟨u', du', c, h1, h2, h3, h4, h5⟩ := hI.link v dv hv hvs
    exact ⟨u', du', c, h1, update_true_mono _ _ _ h2, h3, h4, h5⟩
  · intro e he
    change e ∈ st.trace ++ [(u, d)] at he
    show Function.update st.settled u true e.1 = true ∧ st.dist e.1 = some e.2
    rcases List.mem_append.mp he with he | he
    · exact ⟨update_true_mono _ _ _ (hI.traced e he).1, (hI.traced e he).2⟩
    · simp only [List.mem_singleton] at he
      subst he
      exact ⟨by rw [Function.update_same], hdu⟩
  · intro v hv
    change Function.update st.settled u true v = true at hv
    show v ∈ (st.trace ++ [(u, d)]).map Prod.fst
    rw [List.map_append, List.mem_append]
    by_cases hvu : v = u
    · right
      simp [hvu]
    · rw [Function.update_noteq hvu] at hv
      exact Or.inl (hI.settledTraced v hv)
  · intro pre e post htr
    change st.trace ++ [(u, d)] = pre ++ e :: post at htr
    show e.1 = s ∨ ∃ p, st.pred e.1 = some p ∧ p ∈ pre.map Prod.fst
    rcases snoc_eq_split pre post st.trace e (u, d) htr with ⟨_, hpre, he⟩ | ⟨post', _, htr'⟩
    · subst he
      by_cases hus : u = s
      · exact Or.inl hus
      · obtain ⟨p, dp, c, h1, h2, _, _, _⟩ := hI.link u d hdu hus
        refine Or.inr ⟨p, h1, ?_⟩
        rw [hpre]
        exact hI.settledTraced p h2
    · exact hI.order pre e post' htr'
  · intro v dv hv hdv
    obtain ⟨hvu, hvs⟩ := hunset v hv
    rcases hsplit (v, dv) (hI.queued v dv hvs hdv) with h | h
    · simp only [Prod.mk.injEq] at h
      exact absurd h.1 hvu
    · exact h
  · intro e he
    exact hI.keyed e (hsub e he)
  · intro hw v dv hv hdv w hp
    change Function.update st.settled u true v = true at hv
    change st.dist v = some dv at hdv
    by_cases hvu : v = u
    · subst hvu
      rw [hdu] at hdv
      cases hdv
      obtain ⟨y, dy, hy, hle, hcase⟩ := frontier g s cur st hI hw v w hp
      rcases hcase with hyv | hyu
      · subst hyv
        rw [hdu] at hy
        cases hy
        exact hle
      · have := hmin (y, dy) (hI.queued y dy hyu hy)
        simp only at this
        omega
    · rw [Function.update_noteq hvu] at hv
      exact hI.opt hw v dv hv hdv w hp
  · intro u' du' hu' hdu' a ha
    change Function.update st.settled u true u' = true at hu'
    show (u' = u ∧ a ∈ arcsOf g u) ∨ Function.update st.settled u true a.Dest = true ∨
      ∃ d', st.dist a.Dest = some d' ∧ d' ≤ du' + a.Dist
    by_cases huu : u' = u
    · subst huu
      exact Or.inl ⟨rfl, ha⟩
    · rw [Function.update_noteq huu] at hu'
      rcases hI.relaxed u' du' hu' hdu' a ha with ⟨_, hmem⟩ | h | h
      · simp at hmem
      · exact Or.inr (Or.inl (update_true_mono _ _ _ h))
      · exact Or.inr (Or.inr h)

/-! ## Theorems: the loop ends within its fuel -/

theorem idx?_cons {α : Type} (x : α) (xs : List α) (i : Int) (h : i ≠ 0) :
    idx? (x :: xs) i = idx? xs (i - 1) := by
  unfold idx?
  by_cases h0 : 0 ≤ i
  · have h1 : 0 ≤ i - 1 := by omega
    rw [if_pos h0, if_pos h1]
    have : i.toNat = (i - 1).toNat + 1 := by omega
    rw [this]
    rfl
  · have h1 : ¬ 0 ≤ i - 1 := by omega
    rw [if_neg h0, if_neg h1]

theorem degFrom_eq (u : Int) : ∀ (l : List (List Arc)) (k : Int),
    degFrom u k l = (match idx? l (u - k) with
      | some adj => adj.length
      | none => 0) := by
  intro l
  induction l with
  | nil =>
    intro k
    simp [degFrom, idx?]
  | cons adj rest ih =>
    intro k
    unfold degFrom
    by_cases huk : u = k
    · rw [if_pos huk, huk]
      simp [idx?]
    · rw [if_neg huk, ih (k + 1), idx?_cons adj rest (u - k) (by omega)]
      have : u - (k + 1) = u - k - 1 := by omega
      rw [this]

theorem arcsOf_length (g : Graph) (u : Int) :
    (arcsOf g u).length = degFrom u 0 g.AdjacencyLists := by
  rw [degFrom_eq, sub_zero]
  unfold arcsOf
  split <;> simp_all

theorem pendingFrom_update_lt (settled : Int → Bool) (u : Int) (b : Bool) :
    ∀ (l : List (List Arc)) (k : Int), u < k →
      pendingFrom (Function.update settled u b) k l = pendingFrom settled k l := by
  intro l
  induction l with
  | nil => intro k _; rfl
  | cons adj rest ih =>
    intro k hk
    unfold pendingFrom
    rw [ih (k + 1) (by omega), Function.update_noteq (by omega : k ≠ u)]

theorem pendingFrom_settle (settled : Int → Bool) (u : Int) (hu : settled u = false) :
    ∀ (l : List (List Arc)) (k : Int),
      pendingFrom (Function.update settled u true) k l + degFrom u k l ≤ pendingFrom settled k l := by
  intro l
  induction l with
  | nil => intro k; simp [pendingFrom, degFrom]
  | cons adj rest ih =>
    intro k
    unfold pendingFrom degFrom
    by_cases huk : u = k
    · subst huk
      rw [if_pos rfl, Function.update_same, pendingFrom_update_lt settled u true rest (u + 1) (by omega),
        hu]
      simp
      omega
    · rw [if_neg huk, Function.update_noteq (fun h => huk h.symm)]
      have := ih (k + 1)
      omega

theorem Inv_drop (g : Graph) (s cur u d : Int) (rest : List (Int × Int)) (st : SearchState)
    (hI : Inv g s cur [] st) (hpop : popMin st.queue = some ((u, d), rest))
    (hu : st.settled u = true) : Inv g s cur [] { st with queue := rest } := by
  obtain ⟨_, _, hsplit, hsub, _⟩ := popMin_spec st.queue (u, d) rest hpop
  refine ⟨?_, hI.src, hI.link, hI.traced, hI.settledTraced, hI.order, hI.reach, ?_, ?_,
    hI.opt, hI.relaxed⟩
  · rcases hI.srcFirst with h | h
    · exact Or.inl h
    · exact Or.inr (fun e he => h e (hsub e he))
  · intro v dv hv hdv
    rcases hsplit (v, dv) (hI.queued v dv hv hdv) with h | h
    · simp only [Prod.mk.injEq] at h
      change st.settled v = false at hv
      rw [h.1, hu] at hv
      exact absurd hv (by simp)
    · exact h
  · intro e he
    exact hI.keyed e (hsub e he)

/-- The search loop keeps its invariant and, given fuel for the work left,
stops at one of its two exits: queue empty or destination settled. -/
theorem runSearch_inv (g : Graph) (s t : Int) :
    ∀ (fuel : Nat) (st : SearchState) (cur : Int), Inv g s cur [] st → workLeft g st ≤ fuel →
      ∃ cur' rem', Inv g s cur' rem' (runSearch g t fuel st) ∧
        Finished t (runSearch g t fuel st) := by
  intro fuel
  induction fuel with
  | zero =>
    intro st cur hI hwl
    have h0 : runSearch g t 0 st = st := rfl
    rw [h0]
    refine ⟨cur, [], hI, Or.inl ?_⟩
    unfold workLeft at hwl
    exact List.length_eq_zero.mp (by omega)
  | succ fuel ih =>
    intro st cur hI hwl
    unfold runSearch
    cases hpop : popMin st.queue with
    | none => exact ⟨cur, [], hI, Or.inl (popMin_eq_none _ hpop)⟩
    | some pr =>
      obtain ⟨⟨u, d⟩, rest⟩ := pr
      obtain ⟨_, _, _, _, hlen⟩ := popMin_spec st.queue (u, d) rest hpop
      simp only
      by_cases hu : st.settled u = true
      · rw [if_pos hu]
        apply ih _ cur (Inv_drop g s cur u d rest st hI hpop hu)
        unfold workLeft at hwl ⊢
        simp only
        omega
      · rw [if_neg hu]
        have hu' : st.settled u = false := by simpa using hu
        obtain ⟨hI1, hdu, hss⟩ := Inv_settle g s cur u d rest st hI hpop hu'
        by_cases hut : u = t
        · rw [if_pos hut]
          refine ⟨u, arcsOf g u, hI1, Or.inr ?_⟩
          show Function.update st.settled u true t = true
          rw [hut, Function.update_same]
        · rw [if_neg hut]
          have hsu : (settle st u d rest).settled u = true := by
            show Function.update st.settled u true u = true
            rw [Function.update_same]
          have hI2 := Inv_foldl_relax g s u d (arcsOf g u) (settle st u d rest)
            (fun a ha => ha) hI1 hss hsu hdu
          apply ih _ u hI2
          unfold workLeft at hwl ⊢
          rw [foldl_relax_settled]
          have h1 := foldl_relax_queue_length u d (arcsOf g u) (settle st u d rest)
          have h2 := pendingFrom_settle st.settled u hu' g.AdjacencyLists 0
          rw [← arcsOf_length] at h2
          have h3 : (settle st u d rest).queue.length = rest.length := rfl
          have h4 : (settle st u d rest).settled = Function.update st.settled u true := rfl
          rw [h4]
          omega

theorem pendingFrom_init : ∀ (l : List (List Arc)) (k : Int),
    pendingFrom (fun _ => false) k l = (l.map List.length).sum := by
  intro l
  induction l with
  | nil => intro k; rfl
  | cons adj rest ih =>
    intro k
    unfold pendingFrom
    rw [ih (k + 1)]
    simp

/-- The final working state satisfies the invariant and the loop has
reached one of its exits: the fuel `arcCount g + 1` never runs out. -/
theorem searchFinal_inv (g : Graph) (s t : Int) :
    ∃ cur rem, Inv g s cur rem (searchFinal g s t) ∧ Finished t (searchFinal g s t) := by
  unfold searchFinal
  apply runSearch_inv g s t _ _ s (Inv_init g s s)
  unfold workLeft arcCount
  have : (initState s).settled = fun _ => false := rfl
  rw [this, pendingFrom_init]
  have : (initState s).queue.length = 1 := rfl
  omega

/-! ## Theorems: path reconstruction and the search results -/

theorem ArcChain_snoc (g : Graph) (u v c : Int) (harc : (⟨v, c⟩ : Arc) ∈ arcsOf g u) :
    ∀ (p ws : List Int), ArcChain g p ws → p.getLast? = some u →
      ArcChain g (p ++ [v]) (ws ++ [c]) := by
  intro p
  induction p with
  | nil =>
    intro ws _ hl
    simp at hl
  | cons x xs ih =>
    intro ws hch hl
    cases xs with
    | nil =>
      simp only [List.getLast?_singleton, Option.some.injEq] at hl
      subst hl
      have hws : ws = [] := by simpa [ArcChain] using hch
      subst hws
      simp [ArcChain, harc]
    | cons y ys =>
      cases ws with
      | nil => simp [ArcChain] at hch
      | cons w ws' =>
        simp only [ArcChain] at hch
        have hl' : (y :: ys).getLast? = some u := by
          rw [List.getLast?_cons_cons] at hl
          exact hl
        have := ih ws' hch.2 hl'
        simp only [List.cons_append, ArcChain]
        exact ⟨hch.1, this⟩

theorem walkBack_chain (g : Graph) (s cur : Int) (rem : List Arc) (st : SearchState)
    (hI : Inv g s cur rem st) :
    ∀ (n : Nat) (v d : Int) (l : List Int), walkBack st.pred s n v = some l →
      st.dist v = some d →
      ∃ ws, ArcChain g l.reverse ws ∧ ws.sum = d ∧ l.reverse.head? = some s ∧
        l.head? = some v := by
  intro n
  induction n with
  | zero =>
    intro v d l h _
    simp [walkBack] at h
  | succ n ih =>
    intro v d l h hd
    unfold walkBack at h
    by_cases hvs : v = s
    · rw [if_pos hvs] at h
      simp only [Option.some.injEq] at h
      subst h
      subst hvs
      rw [hI.src] at hd
      cases hd
      exact ⟨[], by simp [ArcChain], rfl, rfl, rfl⟩
    · rw [if_neg hvs] at h
      obtain ⟨u, du, c, h1, _, h3, h4, h5⟩ := hI.link v d hd hvs
      rw [h1] at h
      simp only at h
      cases hw : walkBack st.pred s n u with
      | none =>
        rw [hw] at h
        simp at h
      | some l' =>
        rw [hw] at h
        simp only [Option.some.injEq] at h
        subst h
        obtain ⟨ws, hch, hsum, hhead, hl'⟩ := ih u du l' hw h3
        have hlast : l'.reverse.getLast? = some u := by
          rw [List.getLast?_reverse]
          exact hl'
        refine ⟨ws ++ [c], ?_, ?_, ?_, rfl⟩
        · rw [List.reverse_cons]
          exact ArcChain_snoc g u v c h4 l'.reverse ws hch hlast
        · rw [List.sum_append, hsum, h5]
          simp
        · rw [List.reverse_cons]
          cases hr : l'.reverse with
          | nil =>
            rw [hr] at hhead
            simp at hhead
          | cons x xs =>
            rw [hr] at hhead
            simpa using hhead

theorem walkBack_succeeds (g : Graph) (s cur : Int) (rem : List Arc) (st : SearchState)
    (hI : Inv g s cur rem st) :
    ∀ (n : Nat) (pre : List (Int × Int)) (e : Int × Int) (post : List (Int × Int)),
      st.trace = pre ++ e :: post → pre.length < n →
      ∃ l, walkBack st.pred s n e.1 = some l := by
  intro n
  induction n with
  | zero =>
    intro pre e post _ hlt
    omega
  | succ n ih =>
    intro pre e post htr hlt
    unfold walkBack
    by_cases hes : e.1 = s
    · rw [if_pos hes]
      exact ⟨_, rfl⟩
    · rw [if_neg hes]
      rcases hI.order pre e post htr with h | ⟨p, hp, hmem⟩
      · exact absurd h hes
      · rw [hp]
        simp only
        obtain ⟨e', he', hfst⟩ := List.mem_map.mp hmem
        obtain ⟨pre1, post1, hsplit⟩ := List.append_of_mem he'
        have htr' : st.trace = pre1 ++ e' :: (post1 ++ e :: post) := by
          rw [htr, hsplit]
          simp
        have hlen : pre1.length < n := by
          rw [hsplit] at hlt
          simp only [List.length_append, List.length_cons] at hlt
          omega
        obtain ⟨l, hl⟩ := ih pre1 e' (post1 ++ e :: post) htr' hlen
        rw [hfst] at hl
        rw [hl]
        exact ⟨_, rfl⟩

/-- C6: on a graph with non-negative arc weights and valid source and
destination, the search returns, its loop having reached an exit, and every
vertex `v` of the returned settlement order was settled at one distance
`d`, which is its distance estimate, is the weight of a directed path from
the source to `v`, and is at most the weight of every such path. -/
theorem search_settles_at_minimum (g : Graph) (s t : Int) (hw : NonNegWeights g)
    (hs : validVertex g s) (ht : validVertex g t) :
    ∃ path order, SearchSequence g s t = some (path, order) ∧
      Finished t (searchFinal g s t) ∧
      ∀ v ∈ order, ∃ d, (v, d) ∈ (searchFinal g s t).trace ∧
        (∀ d', (v, d') ∈ (searchFinal g s t).trace → d' = d) ∧
        (searchFinal g s t).dist v = some d ∧
        DirPath g s v d ∧ ∀ w, DirPath g s v w → d ≤ w := by
  obtain ⟨cur, rem, hI, hfin⟩ := searchFinal_inv g s t
  refine ⟨buildPath (searchFinal g s t) s t, (searchFinal g s t).trace.map Prod.fst, ?_, hfin, ?_⟩
  · unfold SearchSequence
    rw [if_pos ⟨hs, ht⟩]
  · intro v hv
    obtain ⟨e, he, hev⟩ := List.mem_map.mp hv
    obtain ⟨hset, hdist⟩ := hI.traced e he
    subst hev
    refine ⟨e.2, he, ?_, hdist, hI.reach e.1 e.2 hdist, hI.opt hw e.1 e.2 hset hdist⟩
    intro d' hd'
    have := (hI.traced (e.1, d') hd').2
    simp only at this
    rw [hdist] at this
    cases this
    rfl

theorem search_settles_at_minimum_witness :
    NonNegWeights scenarioA ∧
    ∃ path order, SearchSequence scenarioA 0 3 = some (path, order) ∧
      Finished 3 (searchFinal scenarioA 0 3) ∧
      ∀ v ∈ order, ∃ d, (v, d) ∈ (searchFinal scenarioA 0 3).trace ∧
        (∀ d', (v, d') ∈ (searchFinal scenarioA 0 3).trace → d' = d) ∧
        (searchFinal scenarioA 0 3).dist v = some d ∧
        DirPath scenarioA 0 v d ∧ ∀ w, DirPath scenarioA 0 v w → d ≤ w :=
  ⟨by decide, search_settles_at_minimum scenarioA 0 3 (by decide) (by decide) (by decide)⟩

/-- C7: for every graph and valid source and destination, the search
returns a path whose consecutive vertices are joined by arcs of the graph
in that direction; when a distance was found for the destination the path
leads from the source to the destination and the weights of those arcs sum
to that distance, otherwise the path is empty. -/
theorem search_path_valid (g : Graph) (s t : Int)
    (hs : validVertex g s) (ht : validVertex g t) :
    ∃ path order, SearchSequence g s t = some (path, order) ∧
      Finished t (searchFinal g s t) ∧
      ∃ ws, ArcChain g path ws ∧
        (((searchFinal g s t).dist t = none ∧ path = []) ∨
          (path.head? = some s ∧ path.getLast? = some t ∧
            (searchFinal g s t).dist t = some ws.sum)) := by
  obtain ⟨cur, rem, hI, hfin⟩ := searchFinal_inv g s t
  refine ⟨buildPath (searchFinal g s t) s t, (searchFinal g s t).trace.map Prod.fst, ?_, hfin, ?_⟩
  · unfold SearchSequence
    rw [if_pos ⟨hs, ht⟩]
  · by_cases hset : (searchFinal g s t).settled t = true
    · obtain ⟨e, he, hev⟩ := List.mem_map.mp (hI.settledTraced t hset)
      obtain ⟨pre, post, hsplit⟩ := List.append_of_mem he
      have hlen : pre.length < (searchFinal g s t).trace.length := by
        rw [hsplit]
        simp only [List.length_append, List.length_cons]
        omega
      obtain ⟨l, hl⟩ := walkBack_succeeds g s cur rem _ hI _ pre e post hsplit hlen
      rw [hev] at hl
      have hdist := (hI.traced e he).2
      rw [hev] at hdist
      obtain ⟨ws, hch, hsum, hhead, hlh⟩ := walkBack_chain g s cur rem _ hI _ t e.2 l hl hdist
      have hpath : buildPath (searchFinal g s t) s t = l.reverse := by
        unfold buildPath
        rw [if_pos hset, hl]
      rw [hpath]
      refine ⟨ws, hch, Or.inr ⟨hhead, ?_, ?_⟩⟩
      · rw [List.getLast?_reverse]
        exact hlh
      · rw [hsum]
        exact hdist
    · have hset' : (searchFinal g s t).settled t = false := by simpa using hset
      have hpath : buildPath (searchFinal g s t) s t = [] := by
        unfold buildPath
        rw [if_neg hset]
      rw [hpath]
      refine ⟨[], by simp [ArcChain], Or.inl ⟨?_, rfl⟩⟩
      rcases hfin with hq | hq
      · cases hd : (searchFinal g s t).dist t with
        | none => rfl
        | some d =>
          have := hI.queued t d hset' hd
          rw [hq] at this
          simp at this
      · exact absurd hq hset

theorem search_path_valid_witness :
    ∃ path order, SearchSequence scenarioA 0 3 = some (path, order) ∧
      Finished 3 (searchFinal scenarioA 0 3) ∧
      ∃ ws, ArcChain scenarioA path ws ∧
        (((searchFinal scenarioA 0 3).dist 3 = none ∧ path = []) ∨
          (path.head? = some 0 ∧ path.getLast? = some 3 ∧
            (searchFinal scenarioA 0 3).dist 3 = some ws.sum)) :=
  search_path_valid scenarioA 0 3 (by decide) (by decide)

/-! ## The scenarios of the specification, evaluated on the model -/

theorem scenarioA_search :
    SearchSequence scenarioA 0 3 = some ([0, 2, 1, 3], [0, 2, 1, 3]) ∧
    (searchFinal scenarioA 0 3).dist 3 = some 5 := by
  decide

theorem scenarioB_search : SearchSequence scenarioB 0 2 = some ([], [0, 1]) := by
  decide

theorem Atoi_examples :
    Atoi "12" = some 12 ∧ Atoi "-7" = some (-7) ∧ Atoi "+3" = some 3 ∧ Atoi "abc" = none ∧
    Atoi "" = none ∧ Atoi "+" = none ∧ Atoi "1_0" = none ∧
    Atoi "9223372036854775807" = some 9223372036854775807 ∧
    Atoi "9223372036854775808" = none ∧
    Atoi "-9223372036854775808" = some (-9223372036854775808) := by
  decide

end RoadServer
